import Mathlib

set_option maxRecDepth 100000

/-!
Verification development for the text-normalization and record-sanitization
pipeline of the otzar-hatorah-dataset-builder repository (`jsonl_to_parquet.py`).

Texts are modelled as `List Char` (Python `str` is a sequence of Unicode code
points).  Records are modelled as ordered association lists from field names to
JSON-like values; the repository's data model nests at most one level (the
`metadata` field maps names to scalar values), so values are two-level.

Python floats appear only in the reversal heuristic's threshold comparison
`evidence / len(words) > 0.15` (resp. `> 0.4`); the comparison is modelled by
the exact rational inequality (equivalently `3*n < 20*e`, `2*n < 5*e`), which
agrees with the IEEE-754 evaluation for every text whose token count is far
below 2^50.
-/

/-- Scalar values that can occur inside the `metadata` mapping of a record. -/
inductive Scalar where
  | sStr : List Char → Scalar
  | sNum : Int → Scalar
  | sBool : Bool → Scalar
  | sNull : Scalar
  | sStrList : List (List Char) → Scalar
  deriving DecidableEq, Repr

/-- Top-level JSON values of a record: strings, numbers, booleans, null
(also standing for Python `None`), or a one-level object such as `metadata`. -/
inductive JValue where
  | vStr : List Char → JValue
  | vNum : Int → JValue
  | vBool : Bool → JValue
  | vNull : JValue
  | vObj : List (String × Scalar) → JValue
  deriving DecidableEq, Repr

/-- A record is an ordered mapping from field names to values (Python dict). -/
abbrev RecordT := List (String × JValue)

/-- Convenience: the character list of a string literal. -/
def chars (s : String) : List Char := s.data

/-- Whether a JSON value is a string (Python `isinstance(value, str)`). -/
def JValue.isStr : JValue → Bool
  | .vStr _ => true
  | _ => false

/-- Python `record.get(key)`: the value at the first matching key, if any. -/
def getField (r : RecordT) (k : String) : Option JValue :=
  match r with
  | [] => none
  | (k', v) :: rest => if k' = k then some v else getField rest k

/-- Python `record[key] = v` on a dict: replace in place, or append if absent. -/
def setField (r : RecordT) (k : String) (v : JValue) : RecordT :=
  match r with
  | [] => [(k, v)]
  | (k', v') :: rest => if k' = k then (k, v) :: rest else (k', v') :: setField rest k v

/-- The character class `[א-ת]` of the source: Hebrew letters U+05D0–U+05EA
(the 27 letters, final forms included). -/
def isHebrewLetter (c : Char) : Bool := 0x5D0 ≤ c.toNat && c.toNat ≤ 0x5EA

/-- `FINAL_LETTERS = frozenset('םןץףך')` from the source. -/
def FINAL_LETTERS : List Char := ['ם', 'ן', 'ץ', 'ף', 'ך']

/-- `NON_FINAL_EQUIVALENTS = frozenset('כמנפצ')` from the source. -/
def NON_FINAL_EQUIVALENTS : List Char := ['כ', 'מ', 'נ', 'פ', 'צ']

/-- `_pre_process_text`: `re.sub(r'(?<=[א-ת])\n(?=[א-ת])', '', text)`.
A newline is deleted exactly when, in the original text, the character before
it and the character after it are both Hebrew letters; the zero-width
lookahead means scanning resumes at the following character. -/
def pre_process_text : List Char → List Char
  | a :: nl :: b :: rest =>
    if isHebrewLetter a && nl == '\n' && isHebrewLetter b then
      a :: pre_process_text (b :: rest)
    else
      a :: pre_process_text (nl :: b :: rest)
  | s => s

/-- The windows-1255 single-byte decoding map (bytes 0x00–0x7F are ASCII;
unassigned bytes return `none`, which makes `bytes.decode` raise). -/
def cp1255DecodeByte (b : Nat) : Option Nat :=
  if b < 0x80 then some b else
  match b with
  | 0x80 => some 0x20AC | 0x82 => some 0x201A | 0x83 => some 0x0192
  | 0x84 => some 0x201E | 0x85 => some 0x2026 | 0x86 => some 0x2020
  | 0x87 => some 0x2021 | 0x88 => some 0x02C6 | 0x89 => some 0x2030
  | 0x8B => some 0x2039 | 0x91 => some 0x2018 | 0x92 => some 0x2019
  | 0x93 => some 0x201C | 0x94 => some 0x201D | 0x95 => some 0x2022
  | 0x96 => some 0x2013 | 0x97 => some 0x2014 | 0x98 => some 0x02DC
  | 0x99 => some 0x2122 | 0x9B => some 0x203A | 0xA0 => some 0x00A0
  | 0xA1 => some 0x00A1 | 0xA2 => some 0x00A2 | 0xA3 => some 0x00A3
  | 0xA4 => some 0x20AA | 0xA5 => some 0x00A5 | 0xA6 => some 0x00A6
  | 0xA7 => some 0x00A7 | 0xA8 => some 0x00A8 | 0xA9 => some 0x00A9
  | 0xAA => some 0x00D7 | 0xAB => some 0x00AB | 0xAC => some 0x00AC
  | 0xAD => some 0x00AD | 0xAE => some 0x00AE | 0xAF => some 0x00AF
  | 0xB0 => some 0x00B0 | 0xB1 => some 0x00B1 | 0xB2 => some 0x00B2
  | 0xB3 => some 0x00B3 | 0xB4 => some 0x00B4 | 0xB5 => some 0x00B5
  | 0xB6 => some 0x00B6 | 0xB7 => some 0x00B7 | 0xB8 => some 0x00B8
  | 0xB9 => some 0x00B9 | 0xBA => some 0x00F7 | 0xBB => some 0x00BB
  | 0xBC => some 0x00BC | 0xBD => some 0x00BD | 0xBE => some 0x00BE
  | 0xBF => some 0x00BF | 0xC0 => some 0x05B0 | 0xC1 => some 0x05B1
  | 0xC2 => some 0x05B2 | 0xC3 => some 0x05B3 | 0xC4 => some 0x05B4
  | 0xC5 => some 0x05B5 | 0xC6 => some 0x05B6 | 0xC7 => some 0x05B7
  | 0xC8 => some 0x05B8 | 0xC9 => some 0x05B9 | 0xCB => some 0x05BB
  | 0xCC => some 0x05BC | 0xCD => some 0x05BD | 0xCE => some 0x05BE
  | 0xCF => some 0x05BF | 0xD0 => some 0x05C0 | 0xD1 => some 0x05C1
  | 0xD2 => some 0x05C2 | 0xD3 => some 0x05C3 | 0xD4 => some 0x05F0
  | 0xD5 => some 0x05F1 | 0xD6 => some 0x05F2 | 0xD7 => some 0x05F3
  | 0xD8 => some 0x05F4 | 0xE0 => some 0x05D0 | 0xE1 => some 0x05D1
  | 0xE2 => some 0x05D2 | 0xE3 => some 0x05D3 | 0xE4 => some 0x05D4
  | 0xE5 => some 0x05D5 | 0xE6 => some 0x05D6 | 0xE7 => some 0x05D7
  | 0xE8 => some 0x05D8 | 0xE9 => some 0x05D9 | 0xEA => some 0x05DA
  | 0xEB => some 0x05DB | 0xEC => some 0x05DC | 0xED => some 0x05DD
  | 0xEE => some 0x05DE | 0xEF => some 0x05DF | 0xF0 => some 0x05E0
  | 0xF1 => some 0x05E1 | 0xF2 => some 0x05E2 | 0xF3 => some 0x05E3
  | 0xF4 => some 0x05E4 | 0xF5 => some 0x05E5 | 0xF6 => some 0x05E6
  | 0xF7 => some 0x05E7 | 0xF8 => some 0x05E8 | 0xF9 => some 0x05E9
  | 0xFA => some 0x05EA | 0xFD => some 0x200E | 0xFE => some 0x200F
  | _ => none

/-- `text.encode('latin-1')`: each code point below 256 becomes that byte;
any higher code point raises `UnicodeEncodeError` (modelled as `none`). -/
def encodeLatin1 (s : List Char) : Option (List Nat) :=
  s.mapM (fun c => if c.toNat < 256 then some c.toNat else none)

/-- `bytes.decode('windows-1255')`, `none` on an unassigned byte. -/
def decodeCp1255 (bs : List Nat) : Option (List Char) :=
  bs.mapM (fun b => (cp1255DecodeByte b).map Char.ofNat)

/-- `fix_hebrew_encoding`: `text.encode('latin-1').decode('windows-1255')`,
returning the input unchanged when either step fails. -/
def fix_hebrew_encoding (s : List Char) : List Char :=
  match (encodeLatin1 s).bind decodeCp1255 with
  | some t => t
  | none => s

/-- A code point is representable in windows-1255 iff some byte decodes to it
(claim-side notion: the encoding's representable range). -/
def cp1255Representable (c : Char) : Bool :=
  (List.range 256).any (fun b => cp1255DecodeByte b == some c.toNat)

/-- Splitting scan of `re.split(r'[^א-ת]+', text)` followed by dropping empty
pieces: accumulate the current Hebrew run (reversed) and emit it when a
non-Hebrew character or the end of the text is reached. -/
def splitHebAux : List Char → List Char → List (List Char)
  | [], acc => if acc.isEmpty then [] else [acc.reverse]
  | c :: cs, acc =>
    if isHebrewLetter c then splitHebAux cs (c :: acc)
    else if acc.isEmpty then splitHebAux cs []
    else acc.reverse :: splitHebAux cs []

/-- `words = [word for word in re.split(r'[^א-ת]+', text) if word]`. -/
def hebrewWords (s : List Char) : List (List Char) := splitHebAux s []

/-- Evidence contributed by one word of the reversal heuristic's loop:
words of length > 1 score 1 for starting with a final letter and 1 for
ending with a non-final letter that has a final form. -/
def wordEvidence (w : List Char) : Nat :=
  if 1 < w.length then
    (if FINAL_LETTERS.contains (w.headD ' ') then 1 else 0) +
    (if NON_FINAL_EQUIVALENTS.contains (w.getLastD ' ') then 1 else 0)
  else 0

/-- `detect_and_fix_reversed_hebrew` from the source.  The decision
`(evidence >= 3 and evidence/n > 0.15) or evidence/n > 0.4` is written with
the equivalent exact integer inequalities `3*n < 20*evidence`,
`2*n < 5*evidence`. -/
def detect_and_fix_reversed_hebrew (s : List Char) : List Char :=
  let words := hebrewWords s
  if words.isEmpty then s
  else
    let e := words.foldl (fun acc w => acc + wordEvidence w) 0
    let n := words.length
    if (3 ≤ e ∧ 3 * n < 20 * e) ∨ 2 * n < 5 * e then s.reverse else s

/-- The heuristic "fires" (decides the text is reversed) iff there is at
least one Hebrew token and the threshold test passes. -/
def reversalFires (s : List Char) : Bool :=
  let words := hebrewWords s
  !words.isEmpty &&
    (let e := words.foldl (fun acc w => acc + wordEvidence w) 0
     let n := words.length
     decide ((3 ≤ e ∧ 3 * n < 20 * e) ∨ 2 * n < 5 * e))

/-- Elements of a compiled regular-expression sequence: a character class
repeated between `lo` and `hi` times (`hi = none` means unbounded; a literal
is a class repeated exactly once), or a word boundary `\b`. -/
inductive RElem where
  | cls : (Char → Bool) → Nat → Option Nat → RElem
  | bnd : RElem

/-- Word characters for `\b`.  Python's `re` uses the full Unicode notion;
this is its restriction to the alphabet the pipeline's texts draw from
(ASCII letters, digits, underscore, Hebrew letters), on which it agrees. -/
def isWordChar (c : Char) : Bool :=
  ('A' ≤ c && c ≤ 'Z') || ('a' ≤ c && c ≤ 'z') || ('0' ≤ c && c ≤ '9') ||
    c == '_' || isHebrewLetter c

/-- `\b` holds between two positions iff exactly one side is a word
character (absent sides count as non-word). -/
def isBoundaryAt (prev next : Option Char) : Bool :=
  (match prev with | some c => isWordChar c | none => false) !=
    (match next with | some c => isWordChar c | none => false)

mutual
/-- Backtracking matcher for a compiled sequence at the current position:
`prev` is the character before the position, the result is the suffix that
remains after a match.  Greedy quantifiers try the longest repetition first,
like Python `re`.  Recursion is fuelled (`none` on exhaustion); callers pass
fuel that is provably larger than the search depth. -/
def matchSeqF : Nat → Option Char → List RElem → List Char → Option (List Char)
  | 0, _, _, _ => none
  | _ + 1, _, [], s => some s
  | f + 1, prev, .bnd :: ps, s =>
    if isBoundaryAt prev s.head? then matchSeqF f prev ps s else none
  | f + 1, prev, .cls p lo hi :: ps, s =>
    let runLen := (s.takeWhile p).length
    let maxT := match hi with | none => runLen | some h => min runLen h
    tryClsF f prev lo ps s (maxT + 1 - lo)

/-- Try repetition counts `lo + n - 1, …, lo` for the class just consumed,
returning the first branch in which the rest of the sequence matches. -/
def tryClsF : Nat → Option Char → Nat → List RElem → List Char → Nat → Option (List Char)
  | 0, _, _, _, _, _ => none
  | _ + 1, _, _, _, _, 0 => none
  | f + 1, prev, lo, ps, s, n + 1 =>
    let k := lo + n
    let prevK := match (s.take k).getLast? with | some d => some d | none => prev
    match matchSeqF f prevK ps (s.drop k) with
    | some r => some r
    | none => tryClsF f prev lo ps s n
end

/-- Match one compiled sequence at the current position, with ample fuel. -/
def matchAt (prev : Option Char) (ps : List RElem) (s : List Char) : Option (List Char) :=
  matchSeqF ((ps.length + 1) * (s.length + 2)) prev ps s

/-- Try a list of alternative sequences in order (expanded alternation). -/
def tryPats (pats : List (List RElem)) (prev : Option Char) (s : List Char) :
    Option (List Char) :=
  pats.findSome? (fun ps => matchAt prev ps s)

/-- Scan of `re.sub`: at each position try a match; on success emit the
replacement and resume after the consumed characters (which the patterns
below always make nonempty), otherwise copy one character.  `prev` tracks
the preceding character of the original string for `\b`. -/
def subScanF (pats : List (List RElem)) (repl : List Char) :
    Nat → Option Char → List Char → List Char
  | 0, _, s => s
  | _ + 1, prev, [] =>
    match tryPats pats prev [] with
    | some _ => repl
    | none => []
  | f + 1, prev, c :: cs =>
    match tryPats pats prev (c :: cs) with
    | some rest =>
      if rest.length < (c :: cs).length then
        let consumed := (c :: cs).take ((c :: cs).length - rest.length)
        repl ++ subScanF pats repl f
          (match consumed.getLast? with | some d => some d | none => prev) rest
      else c :: subScanF pats repl f (some c) cs
    | none => c :: subScanF pats repl f (some c) cs

/-- `re.sub(pattern, repl, s)` for the compiled alternatives `pats`. -/
def reSub (pats : List (List RElem)) (repl : List Char) (s : List Char) : List Char :=
  subScanF pats repl (s.length + 1) none s

/-- Whether some position of `s` carries a match (same scan as `reSub`). -/
def hasMatchF (pats : List (List RElem)) : Nat → Option Char → List Char → Bool
  | 0, _, _ => false
  | _ + 1, prev, [] => (tryPats pats prev []).isSome
  | f + 1, prev, c :: cs =>
    (tryPats pats prev (c :: cs)).isSome || hasMatchF pats f (some c) cs

/-- Whether `re.search(pattern, s)` would find a match. -/
def hasMatch (pats : List (List RElem)) (s : List Char) : Bool :=
  hasMatchF pats (s.length + 1) none s

/-- ASCII digit, the `\d` of the source patterns on their inputs. -/
def isAsciiDigit (c : Char) : Bool := '0' ≤ c && c ≤ '9'

/-- ASCII letter. -/
def isAsciiLetter (c : Char) : Bool := ('A' ≤ c && c ≤ 'Z') || ('a' ≤ c && c ≤ 'z')

/-- The class `[A-Za-z0-9._%+-]` of the email pattern's local part. -/
def emailLocalChar (c : Char) : Bool :=
  isAsciiLetter c || isAsciiDigit c || c == '.' || c == '_' || c == '%' || c == '+' || c == '-'

/-- The class `[A-Za-z0-9.-]` of the email pattern's domain part. -/
def emailDomainChar (c : Char) : Bool :=
  isAsciiLetter c || isAsciiDigit c || c == '.' || c == '-'

/-- The class `[A-Z|a-z]` of the email pattern's top-level-domain part
(the source class literally contains `|`). -/
def emailTldChar (c : Char) : Bool := isAsciiLetter c || c == '|'

/-- A literal character as a compiled element. -/
def lit (c : Char) : RElem := .cls (fun d => d == c) 1 (some 1)

/-- `EMAIL_REGEX = r'\b[A-Za-z0-9._%+-]+@[A-Za-z0-9.-]+\.[A-Z|a-z]{2,7}\b'`. -/
def EMAIL_PATTERNS : List (List RElem) :=
  [[.bnd, .cls emailLocalChar 1 none, lit '@', .cls emailDomainChar 1 none,
    lit '.', .cls emailTldChar 2 (some 7), .bnd]]

/-- `PHONE_REGEX = r'\b(?:(?:\+972-?)|0)(?:[23489]|5[0-9]|7[0-9])-?\d{7}\b'`,
with both alternations expanded into six sequences in backtracking order
(the alternatives are first-character disjoint, so this is faithful). -/
def PHONE_PATTERNS : List (List RElem) :=
  let tl := [.cls (fun c => c == '-') 0 (some 1), .cls isAsciiDigit 7 (some 7), RElem.bnd]
  let a1 := [lit '+', lit '9', lit '7', lit '2', .cls (fun c => c == '-') 0 (some 1)]
  let a2 := [lit '0']
  let b1 := [.cls (fun c => c == '2' || c == '3' || c == '4' || c == '8' || c == '9') 1 (some 1)]
  let b2 := [lit '5', .cls isAsciiDigit 1 (some 1)]
  let b3 := [lit '7', .cls isAsciiDigit 1 (some 1)]
  [[RElem.bnd] ++ a1 ++ b1 ++ tl, [RElem.bnd] ++ a1 ++ b2 ++ tl, [RElem.bnd] ++ a1 ++ b3 ++ tl,
   [RElem.bnd] ++ a2 ++ b1 ++ tl, [RElem.bnd] ++ a2 ++ b2 ++ tl, [RElem.bnd] ++ a2 ++ b3 ++ tl]

/-- The fixed email placeholder. -/
def EMAIL_REPL : List Char := chars "[EMAIL_REMOVED]"

/-- The fixed phone placeholder. -/
def PHONE_REPL : List Char := chars "[PHONE_REMOVED]"

/-- The per-string body of `anonymize_record`: email substitution, then
phone substitution. -/
def anonymizeStr (s : List Char) : List Char :=
  reSub PHONE_PATTERNS PHONE_REPL (reSub EMAIL_PATTERNS EMAIL_REPL s)

/-- `anonymize_record`: rebuild the record, replacing PII in every
string-valued field and passing other values through. -/
def anonymize_record : RecordT → RecordT
  | [] => []
  | (k, v) :: rest =>
    (k, match v with | .vStr s => .vStr (anonymizeStr s) | v => v) :: anonymize_record rest

/-- Count of non-overlapping occurrences of the literal `'(cid:'`, i.e.
Python `text.count('(cid:')` (the substring has no self-overlap). -/
def cidPrefixCount : List Char → Nat
  | '(' :: 'c' :: 'i' :: 'd' :: ':' :: rest => cidPrefixCount rest + 1
  | _ :: rest => cidPrefixCount rest
  | [] => 0

/-- Match of `\(cid:\d+\)` at the head of the list: the remaining suffix on
success.  After the maximal digit run a `)` must follow; no other
backtracking branch exists since `)` is not a digit. -/
def cidTagMatch (l : List Char) : Option (List Char) :=
  match l with
  | '(' :: 'c' :: 'i' :: 'd' :: ':' :: rest =>
    let ds := rest.takeWhile isAsciiDigit
    if ds.isEmpty then none
    else
      match rest.drop ds.length with
      | ')' :: r => some r
      | _ => none
  | _ => none

/-- Fuelled scan of `re.sub(r'\(cid:\d+\)', '', text)`. -/
def removeCidF : Nat → List Char → List Char
  | 0, s => s
  | _ + 1, [] => []
  | f + 1, c :: cs =>
    match cidTagMatch (c :: cs) with
    | some r => removeCidF f r
    | none => c :: removeCidF f cs

/-- `re.sub(r'\(cid:\d+\)', '', text)`: every leftmost non-overlapping
match of the marker pattern removed. -/
def removeCidTags (s : List Char) : List Char := removeCidF (s.length + 1) s

/-- Fuelled count of leftmost non-overlapping `\(cid:\d+\)` matches. -/
def countCidF : Nat → List Char → Nat
  | 0, _ => 0
  | _ + 1, [] => 0
  | f + 1, c :: cs =>
    match cidTagMatch (c :: cs) with
    | some r => countCidF f r + 1
    | none => countCidF f cs

/-- Number of occurrences of the marker pattern `(cid:<digits>)` in a text
(claim-side notion, `len(re.findall(r'\(cid:\d+\)', text))`). -/
def cidMarkerCount (s : List Char) : Nat := countCidF (s.length + 1) s

/-- `process_text_field`: non-strings pass through unchanged (`JValue.vNull`
also models Python `None`); a string is dropped (`vNull`) when the count of
`'(cid:'` exceeds the threshold, and otherwise cleaned by marker removal,
line-joining, encoding repair and reversal repair, in this order. -/
def process_text_field (v : JValue) (cid_threshold : Nat) : JValue :=
  match v with
  | .vStr s =>
    if cid_threshold < cidPrefixCount s then .vNull
    else
      .vStr (detect_and_fix_reversed_hebrew (fix_hebrew_encoding
        (pre_process_text (removeCidTags s))))
  | v => v

/-- Per-record step of `convert_jsonl_to_parquet`'s reading loop:
`process_text_field(record.get('text'))`; a `None` result is skipped
(counted), otherwise the text is stored back and the record anonymized. -/
def ingestRecord (r : RecordT) : Option RecordT :=
  match process_text_field
      (match getField r "text" with | some v => v | none => JValue.vNull) 10 with
  | .vNull => none
  | p => some (anonymize_record (setField r "text" p))

/-- The reading loop over all input records: the collected records in input
order together with the `skipped_count` of dropped ones. -/
def collect_records : List RecordT → List RecordT × Nat
  | [] => ([], 0)
  | r :: rs =>
    match ingestRecord r with
    | none => ((collect_records rs).1, (collect_records rs).2 + 1)
    | some r' => (r' :: (collect_records rs).1, (collect_records rs).2)

/-- ASCII whitespace, the default strip set of Python `str.strip()`
restricted to the characters occurring here. -/
def isPySpace (c : Char) : Bool :=
  c == ' ' || c == '\t' || c == '\n' || c == '\r' || c == Char.ofNat 11 || c == Char.ofNat 12

/-- Python `s.strip()`. -/
def pyStrip (s : List Char) : List Char :=
  ((s.dropWhile isPySpace).reverse.dropWhile isPySpace).reverse

/-- The `'text'` cell of a record, as pandas sees the column. -/
def textKey (r : RecordT) : JValue :=
  match getField r "text" with | some v => v | none => JValue.vNull

/-- Row filter of `df.dropna(subset=['text'])` followed by
`df['text'].str.strip() != ''`: a missing or null cell is dropped; a string
cell is kept iff it strips to nonempty; a non-string cell is kept (its
`.str.strip()` is NaN and `NaN != ''` holds in pandas). -/
def stripFilter (r : RecordT) : Bool :=
  match getField r "text" with
  | some (.vStr s) => !(pyStrip s).isEmpty
  | some .vNull => false
  | some _ => true
  | none => false

/-- `df.drop_duplicates(subset=['text'], keep='first')`: keep a row iff its
text cell was not seen before. -/
def keepFirstAux : List JValue → List RecordT → List RecordT
  | _, [] => []
  | seen, r :: rs =>
    if textKey r ∈ seen then keepFirstAux seen rs
    else r :: keepFirstAux (textKey r :: seen) rs

/-- The deduplication block of `convert_jsonl_to_parquet`: drop null/empty
texts, then (when the collected batch had more than one row) drop duplicate
texts keeping the first occurrence. -/
def dedup_records (rs : List RecordT) : List RecordT :=
  let filtered := rs.filter stripFilter
  if 1 < rs.length then keepFirstAux [] filtered else filtered

/-- Record-level core of `convert_jsonl_to_parquet`: the emitted rows and
the corruption-skip counter. -/
def convert_records (rs : List RecordT) : List RecordT × Nat :=
  (dedup_records (collect_records rs).1, (collect_records rs).2)


/-- No position of the list carries the line-joining pattern: no newline has
a Hebrew letter immediately before and after it. -/
def noJoinPat : List Char → Bool
  | a :: nl :: b :: rest =>
    !(isHebrewLetter a && nl == '\n' && isHebrewLetter b) && noJoinPat (nl :: b :: rest)
  | _ => true

theorem hebrew_not_newline {c : Char} (h : isHebrewLetter c = true) : (c == '\n') = false := by
  cases hc : c == '\n' with
  | false => rfl
  | true =>
    have : c = '\n' := beq_iff_eq.mp hc
    subst this
    exact absurd h (by decide)

theorem pre_process_text_cons (c : Char) (l : List Char) :
    ∃ t, pre_process_text (c :: l) = c :: t := by
  cases l with
  | nil => exact ⟨[], rfl⟩
  | cons x xs =>
    cases xs with
    | nil => exact ⟨[x], rfl⟩
    | cons y ys =>
      simp only [pre_process_text]
      split
      · exact ⟨_, rfl⟩
      · exact ⟨_, rfl⟩

theorem pre_process_text_cons_not_heb {nl : Char} (hnl : isHebrewLetter nl = false)
    (b : Char) (rest : List Char) :
    pre_process_text (nl :: b :: rest) = nl :: pre_process_text (b :: rest) := by
  cases rest with
  | nil => rfl
  | cons r rs => simp [pre_process_text, hnl]

theorem noJoinPat_pre_process (l : List Char) : noJoinPat (pre_process_text l) = true := by
  induction l using pre_process_text.induct with
  | case1 a nl b rest hcond ih =>
    have hcond' := hcond
    simp only [Bool.and_eq_true] at hcond'
    obtain ⟨⟨haH, hnlEq⟩, hbH⟩ := hcond'
    obtain ⟨t, ht⟩ := pre_process_text_cons b rest
    rw [pre_process_text, if_pos hcond, ht]
    rw [ht] at ih
    cases t with
    | nil => rfl
    | cons u t' =>
      simp only [noJoinPat, hebrew_not_newline hbH, Bool.and_false, Bool.false_and,
        Bool.not_false, Bool.true_and]
      exact ih
  | case2 a nl b rest hcond ih =>
    rw [pre_process_text, if_neg (by simpa using hcond)]
    by_cases hnl : nl == '\n'
    · have hnlv : nl = '\n' := beq_iff_eq.mp hnl
      subst hnlv
      rw [pre_process_text_cons_not_heb (by decide)] at ih ⊢
      obtain ⟨t, ht⟩ := pre_process_text_cons b rest
      rw [ht] at ih ⊢
      have hfalse : (isHebrewLetter a && ('\n' == '\n') && isHebrewLetter b) = false := by
        simpa using hcond
      simp only [noJoinPat, hfalse, Bool.not_false, Bool.true_and]
      exact ih
    · obtain ⟨t, ht⟩ := pre_process_text_cons nl (b :: rest)
      rw [ht] at ih ⊢
      cases t with
      | nil => rfl
      | cons u t' =>
        have hnl' : (nl == '\n') = false := by
          cases h : nl == '\n'
          · rfl
          · exact absurd h (by simp [hnl])
        simp only [noJoinPat, hnl', Bool.and_false, Bool.false_and, Bool.and_false,
          Bool.not_false, Bool.true_and]
        exact ih
  | case3 s h1 =>
    cases s with
    | nil => rfl
    | cons a t =>
      cases t with
      | nil => rfl
      | cons b u =>
        cases u with
        | nil => rfl
        | cons x y => exact absurd rfl (h1 a b x y)

theorem pre_process_eq_of_noJoinPat (l : List Char) (h : noJoinPat l = true) :
    pre_process_text l = l := by
  induction l using pre_process_text.induct with
  | case1 a nl b rest hcond ih =>
    rw [noJoinPat, hcond] at h
    simp at h
  | case2 a nl b rest hcond ih =>
    rw [noJoinPat] at h
    have htail : noJoinPat (nl :: b :: rest) = true := by
      cases hx : noJoinPat (nl :: b :: rest)
      · rw [hx, Bool.and_false] at h; exact absurd h (by simp)
      · rfl
    rw [pre_process_text, if_neg (by simpa using hcond), ih htail]
  | case3 s h1 =>
    cases s with
    | nil => rfl
    | cons a t =>
      cases t with
      | nil => rfl
      | cons b u =>
        cases u with
        | nil => rfl
        | cons x y => exact absurd rfl (h1 a b x y)

/-- C9: the line-joining repair `_pre_process_text` is idempotent — applying
it twice yields exactly the same result as applying it once. -/
theorem C9_line_joining_idempotent (l : List Char) :
    pre_process_text (pre_process_text l) = pre_process_text l :=
  pre_process_eq_of_noJoinPat _ (noJoinPat_pre_process l)

/-- C2 counterexample: the filter as implemented counts the literal `'(cid:'`,
not full `(cid:<digits>)` markers.  Eleven bare `'(cid:'` prefixes contain
zero occurrences of the marker pattern, yet the record is rejected; and for
nested markers the removal can splice a fresh marker into the output. -/
theorem C2_counterexample :
    (process_text_field
        (JValue.vStr (chars "(cid:(cid:(cid:(cid:(cid:(cid:(cid:(cid:(cid:(cid:(cid:")) 10
        = JValue.vNull
      ∧ cidMarkerCount (chars "(cid:(cid:(cid:(cid:(cid:(cid:(cid:(cid:(cid:(cid:(cid:") = 0)
    ∧ (process_text_field (JValue.vStr (chars "(cid:1(cid:2)3)")) 10
        = JValue.vStr (chars "(cid:13)")
      ∧ cidMarkerCount (chars "(cid:13)") = 1) := by
  refine ⟨⟨?_, ?_⟩, ?_, ?_⟩ <;> decide

/-- C2 (amended): the corruption filter rejects a string iff the number of
occurrences of the literal substring `'(cid:'` exceeds the threshold; when it
does not reject, the leftmost non-overlapping `(cid:<digits>)` matches are
removed before further cleaning (though removal may splice surrounding
characters into new marker-shaped substrings). -/
theorem C2_corruption_filter_amended (s : List Char) (thr : Nat) :
    process_text_field (JValue.vStr s) thr = JValue.vNull ↔ thr < cidPrefixCount s := by
  constructor
  · intro h
    by_cases hc : thr < cidPrefixCount s
    · exact hc
    · rw [process_text_field, if_neg hc] at h
      exact absurd h (by simp)
  · intro h
    rw [process_text_field, if_pos h]

theorem encodeLatin1_eq_none {s : List Char} {c : Char} (hc : c ∈ s)
    (h256 : 256 ≤ c.toNat) : encodeLatin1 s = none := by
  induction s with
  | nil => cases hc
  | cons a as ih =>
    rcases List.mem_cons.mp hc with h | h
    · subst h
      simp only [encodeLatin1, List.mapM_cons]
      rw [if_neg (by omega)]
      rfl
    · have hnone := ih h
      simp only [encodeLatin1, List.mapM_cons] at hnone ⊢
      cases hfa : (if c.toNat < 256 then some c.toNat else none) <;>
        cases hfa' : (if a.toNat < 256 then some a.toNat else none) <;>
          simp_all

/-- C7 counterexample: `'à'` (U+00E0) is not representable in windows-1255,
yet the repair maps the text `"à"` to `"א"` rather than returning it
unchanged — the round-trip only fails on code points outside latin-1. -/
theorem C7_counterexample :
    cp1255Representable 'à' = false
      ∧ fix_hebrew_encoding (chars "à") = chars "א"
      ∧ chars "א" ≠ chars "à" := by
  refine ⟨?_, ?_, ?_⟩ <;> decide

/-- C7 (amended): the encoding repair is the identity on every text that
contains a character outside latin-1's representable range (code point
≥ 256) — in particular on any text containing a Hebrew letter — because the
re-encode step of the round-trip fails there and the original is returned. -/
theorem C7_encoding_repair_amended (s : List Char) (h : ∃ c ∈ s, 256 ≤ c.toNat) :
    fix_hebrew_encoding s = s := by
  obtain ⟨c, hc, h256⟩ := h
  rw [fix_hebrew_encoding, encodeLatin1_eq_none hc h256]
  rfl

/-- Witness for C7 (amended): Hebrew text is left unchanged. -/
theorem C7_encoding_repair_amended_witness :
    fix_hebrew_encoding (chars "שלום") = chars "שלום" :=
  C7_encoding_repair_amended (chars "שלום") ⟨'ש', by decide, by decide⟩

theorem detect_fires_eq_reverse {s : List Char} (h : reversalFires s = true) :
    detect_and_fix_reversed_hebrew s = s.reverse := by
  rw [reversalFires] at h
  simp only [Bool.and_eq_true, Bool.not_eq_true'] at h
  obtain ⟨hne, hdec⟩ := h
  rw [detect_and_fix_reversed_hebrew]
  simp only [hne, Bool.false_eq_true, if_false]
  rw [if_pos (of_decide_eq_true hdec)]

/-- C8 counterexample: on `"םא םא םא"` the heuristic fires, but the repaired
output no longer fires, so applying the repair twice does not return the
original text — the repair is not an involution. -/
theorem C8_counterexample :
    reversalFires (chars "םא םא םא") = true
      ∧ detect_and_fix_reversed_hebrew (detect_and_fix_reversed_hebrew (chars "םא םא םא"))
          ≠ chars "םא םא םא" := by
  constructor <;> decide

/-- C8 (amended): when the heuristic fires, the repair returns exactly the
character-reversed string, so plain string reversal of the output (not a
second run of the repair) recovers the input. -/
theorem C8_reversal_amended (s : List Char) (h : reversalFires s = true) :
    detect_and_fix_reversed_hebrew s = s.reverse
      ∧ (detect_and_fix_reversed_hebrew s).reverse = s := by
  refine ⟨detect_fires_eq_reverse h, ?_⟩
  rw [detect_fires_eq_reverse h, List.reverse_reverse]

/-- Witness for C8 (amended) at a firing input. -/
theorem C8_reversal_amended_witness :
    detect_and_fix_reversed_hebrew (chars "םא םא םא") = (chars "םא םא םא").reverse
      ∧ (detect_and_fix_reversed_hebrew (chars "םא םא םא")).reverse = chars "םא םא םא" :=
  C8_reversal_amended (chars "םא םא םא") (by decide)

/-- C10: `process_text_field` returns any non-string value (including
Python `None`) unchanged rather than raising; and a record whose `'text'`
field is absent is skipped by the reading loop and counted in the
corruption-skip counter (its `record.get('text')` is `None`, which
`process_text_field` returns as-is, indistinguishable from the drop
signal). -/
theorem C10_missing_text_skipped :
    (∀ (v : JValue) (thr : Nat), v.isStr = false → process_text_field v thr = v)
      ∧ (∀ (rs : List RecordT) (r : RecordT), getField r "text" = none →
          collect_records (r :: rs) = ((collect_records rs).1, (collect_records rs).2 + 1)) := by
  constructor
  · intro v thr hv
    cases v with
    | vStr s => simp [JValue.isStr] at hv
    | vNum n => rfl
    | vBool b => rfl
    | vNull => rfl
    | vObj o => rfl
  · intro rs r hget
    have hing : ingestRecord r = none := by
      rw [ingestRecord, hget]
      rfl
    rw [collect_records, hing]

/-- Witness for C10: a record with no `'text'` field is dropped and counted. -/
theorem C10_missing_text_skipped_witness :
    process_text_field (JValue.vObj []) 10 = JValue.vObj []
      ∧ collect_records [[("source", JValue.vStr (chars "a.txt"))]] = ([], 1) := by
  constructor
  · exact C10_missing_text_skipped.1 (JValue.vObj []) 10 (by decide)
  · have h := C10_missing_text_skipped.2 [] [("source", JValue.vStr (chars "a.txt"))] (by decide)
    simpa using h

/-- Claim-side splitter (spec §4.4 step 1): cut the text at every
non-Hebrew-letter character; chunks between consecutive cuts may be empty
and are filtered below, leaving exactly the maximal runs of Hebrew letters. -/
def splitNonHebrew : List Char → List (List Char)
  | [] => [[]]
  | c :: cs =>
    if isHebrewLetter c then (splitNonHebrew cs).modifyHead (c :: ·)
    else [] :: splitNonHebrew cs

/-- Claim-side tokens: the maximal Hebrew-letter-only runs of the text. -/
def hebrewTokens (s : List Char) : List (List Char) :=
  (splitNonHebrew s).filter (fun w => !w.isEmpty)

theorem modifyHead_comp (l : List (List Char)) (f g : List Char → List Char) :
    (l.modifyHead f).modifyHead g = l.modifyHead (fun x => g (f x)) := by
  cases l <;> rfl

theorem modifyHead_congr (l : List (List Char)) (f g : List Char → List Char)
    (h : ∀ x, f x = g x) : l.modifyHead f = l.modifyHead g := by
  cases l <;> simp [h]

theorem modifyHead_ident (l : List (List Char)) : l.modifyHead (fun x => x) = l := by
  cases l <;> rfl

theorem splitHebAux_eq (s : List Char) (acc : List Char) :
    splitHebAux s acc
      = ((splitNonHebrew s).modifyHead (acc.reverse ++ ·)).filter (fun w => !w.isEmpty) := by
  induction s generalizing acc with
  | nil =>
    cases acc with
    | nil => rfl
    | cons a as =>
      have h1 : ((a :: as).reverse).isEmpty = false := by simp
      simp only [splitHebAux, List.isEmpty_cons, Bool.false_eq_true, ite_false,
        splitNonHebrew, List.modifyHead, List.append_nil, List.filter_cons, h1,
        Bool.not_false, if_true, ite_true, List.filter_nil]
  | cons c cs ih =>
    by_cases hc : isHebrewLetter c
    · simp only [splitHebAux, splitNonHebrew, hc, if_true, ite_true]
      rw [ih (c :: acc), modifyHead_comp]
      exact congrArg _ (modifyHead_congr _ _ _ (fun w => by simp))
    · have hc' : isHebrewLetter c = false := by simpa using hc
      have hnil : splitHebAux cs []
          = (splitNonHebrew cs).filter (fun w => !w.isEmpty) := by
        rw [ih [], modifyHead_congr _ _ (fun x => x) (fun w => by simp), modifyHead_ident]
      simp only [splitHebAux, splitNonHebrew, hc', Bool.false_eq_true, ite_false, if_false]
      have hmh : ([] :: splitNonHebrew cs).modifyHead (acc.reverse ++ ·)
          = (acc.reverse ++ []) :: splitNonHebrew cs := rfl
      rw [hmh, List.append_nil, List.filter_cons]
      cases acc with
      | nil =>
        simp only [List.isEmpty_nil, if_true, ite_true, List.reverse_nil, Bool.not_true,
          Bool.false_eq_true, if_false, ite_false]
        exact hnil
      | cons a as =>
        have h2 : (!((a :: as).reverse).isEmpty) = true := by simp
        simp only [List.isEmpty_cons, Bool.false_eq_true, if_false, ite_false, h2,
          if_true, ite_true, hnil]

/-- The source's token list equals the claim-side maximal-run tokens. -/
theorem hebrewWords_eq_tokens (s : List Char) : hebrewWords s = hebrewTokens s := by
  rw [hebrewWords, splitHebAux_eq, hebrewTokens]
  have : (splitNonHebrew s).modifyHead (List.reverse [] ++ ·)
      = (splitNonHebrew s).modifyHead (fun x => x) :=
    modifyHead_congr _ _ _ (fun w => by simp)
  rw [this, modifyHead_ident]

theorem foldl_evidence (ws : List (List Char)) (a : Nat) :
    ws.foldl (fun acc w => acc + wordEvidence w) a = a + (ws.map wordEvidence).sum := by
  induction ws generalizing a with
  | nil => simp
  | cons w ws ih => simp [ih, Nat.add_assoc]

theorem ratio_gt_15_iff (e n : Nat) (hn : 0 < n) :
    ((0.15 : ℚ) < (e : ℚ) / (n : ℚ)) ↔ 3 * n < 20 * e := by
  have h15 : (0.15 : ℚ) = 3 / 20 := by norm_num
  rw [h15, div_lt_div_iff₀ (by norm_num) (by exact_mod_cast hn)]
  constructor <;> intro h
  · qify; linarith
  · qify at h; linarith

theorem ratio_gt_40_iff (e n : Nat) (hn : 0 < n) :
    ((0.4 : ℚ) < (e : ℚ) / (n : ℚ)) ↔ 2 * n < 5 * e := by
  have h40 : (0.4 : ℚ) = 2 / 5 := by norm_num
  rw [h40, div_lt_div_iff₀ (by norm_num) (by exact_mod_cast hn)]
  constructor <;> intro h
  · qify; linarith
  · qify at h; linarith

/-- Directionality repair exactly as the claim words it: split on every
maximal run of non-Hebrew-letter characters into Hebrew-letter-only tokens;
no tokens means no change; evidence is the sum of per-token scores; the
ratio is the rational `evidence / number of tokens`; reverse the whole
string iff `(evidence ≥ 3 ∧ ratio > 0.15) ∨ ratio > 0.4`. -/
def directionalityRepairSpec (s : List Char) : List Char :=
  let tokens := hebrewTokens s
  if tokens.isEmpty then s
  else
    let e := (tokens.map wordEvidence).sum
    let n := tokens.length
    if (3 ≤ e ∧ (0.15 : ℚ) < (e : ℚ) / (n : ℚ)) ∨ (0.4 : ℚ) < (e : ℚ) / (n : ℚ)
    then s.reverse else s

/-- C1: `detect_and_fix_reversed_hebrew` computes exactly the specified
heuristic (tokens are the maximal Hebrew runs, evidence sums the two
per-token signals for tokens of length > 1, and the decision compares
`evidence/#tokens` with 0.15 and 0.4 as stated). -/
theorem C1_directionality_repair (s : List Char) :
    detect_and_fix_reversed_hebrew s = directionalityRepairSpec s := by
  rw [detect_and_fix_reversed_hebrew, directionalityRepairSpec, hebrewWords_eq_tokens]
  by_cases hne : (hebrewTokens s).isEmpty
  · simp only [hne, if_true, ite_true]
  · have hn : 0 < (hebrewTokens s).length := by
      cases h : hebrewTokens s with
      | nil => rw [h] at hne; exact absurd rfl hne
      | cons w ws => simp [h]
    simp only [hne, Bool.false_eq_true, if_false, ite_false]
    rw [foldl_evidence, Nat.zero_add]
    exact if_congr
      (or_congr
        (and_congr Iff.rfl (ratio_gt_15_iff _ _ hn).symm)
        (ratio_gt_40_iff _ _ hn).symm)
      rfl rfl

/-- Substring containment (the claim's "output contains ..."). -/
def containsSub (needle : List Char) : List Char → Bool
  | [] => needle.isEmpty
  | c :: cs => needle.isPrefixOf (c :: cs) || containsSub needle cs

/-- Per-value action of `anonymize_record`: strings are redacted, any other
value passes through unchanged. -/
def anonymizeValue : JValue → JValue
  | .vStr s => .vStr (anonymizeStr s)
  | v => v

theorem anonymize_record_eq_map (r : RecordT) :
    anonymize_record r = r.map (fun kv => (kv.1, anonymizeValue kv.2)) := by
  induction r with
  | nil => rfl
  | cons kv rest ih =>
    cases kv with
    | mk k v => cases v <;> simp [anonymize_record, anonymizeValue, ih]

/-- C3 counterexample: the string `"user@example.com_"` contains
`user@example.com`, but redaction leaves it entirely unchanged (the email
pattern's trailing `\b` fails before `_`), so the output contains the
original address and no placeholder. -/
theorem C3_counterexample :
    containsSub (chars "user@example.com") (chars "user@example.com_") = true
      ∧ anonymizeStr (chars "user@example.com_") = chars "user@example.com_"
      ∧ containsSub (chars "[EMAIL_REMOVED]") (anonymizeStr (chars "user@example.com_")) = false
      ∧ containsSub (chars "user@example.com") (anonymizeStr (chars "user@example.com_")) = true := by
  refine ⟨?_, ?_, ?_, ?_⟩ <;> decide

/-- C3 (amended): every string-valued field gets the email substitution and
then the phone substitution, non-string fields pass through unchanged; the
sample strings are redacted when they occur delimited by word boundaries
(e.g. the exact strings, or followed by punctuation), though an occurrence
directly adjacent to a word character may survive. -/
theorem C3_pii_redaction_amended :
    (∀ r : RecordT, anonymize_record r = r.map (fun kv => (kv.1, anonymizeValue kv.2)))
      ∧ anonymizeStr (chars "user@example.com") = chars "[EMAIL_REMOVED]"
      ∧ anonymizeStr (chars "contact: user@example.com.") = chars "contact: [EMAIL_REMOVED]."
      ∧ anonymizeStr (chars "0501234567") = chars "[PHONE_REMOVED]" := by
  refine ⟨anonymize_record_eq_map, ?_, ?_, ?_⟩ <;> decide

theorem subScanF_eq_of_no_match (pats : List (List RElem)) (repl : List Char) :
    ∀ (f : Nat) (prev : Option Char) (s : List Char),
      hasMatchF pats f prev s = false → subScanF pats repl f prev s = s := by
  intro f
  induction f with
  | zero => intro prev s h; rfl
  | succ f ih =>
    intro prev s h
    cases s with
    | nil =>
      rw [hasMatchF] at h
      rw [subScanF]
      cases htry : tryPats pats prev [] with
      | none => rfl
      | some r => rw [htry] at h; simp at h
    | cons c cs =>
      rw [hasMatchF, Bool.or_eq_false_iff] at h
      obtain ⟨h1, h2⟩ := h
      rw [subScanF]
      cases htry : tryPats pats prev (c :: cs) with
      | none => rw [ih (some c) cs h2]
      | some r => rw [htry] at h1; simp at h1

/-- C5 counterexample: `anonymize_record` rewrites every top-level string
field, including `source` — a record whose source is `"a@b.cd"` is emitted
with source `"[EMAIL_REMOVED]"`. -/
theorem C5_counterexample :
    (convert_records [[("text", JValue.vStr (chars "x")),
        ("source", JValue.vStr (chars "a@b.cd"))]]).1
      = [[("text", JValue.vStr (chars "x")),
          ("source", JValue.vStr (chars "[EMAIL_REMOVED]"))]]
      ∧ chars "[EMAIL_REMOVED]" ≠ chars "a@b.cd" := by
  constructor <;> decide

/-- C5 (amended): non-string fields — in particular the `metadata` mapping —
pass through the pipeline unchanged; the `source` field is unchanged exactly
when the email and phone patterns find no match in it (typical path
strings), but a string-valued `source` that matches a PII pattern is
rewritten. -/
theorem anonymizeValue_eq_of_not_str {v : JValue} (hv : v.isStr = false) :
    anonymizeValue v = v := by
  cases v with
  | vStr s => simp [JValue.isStr] at hv
  | vNum n => rfl
  | vBool b => rfl
  | vNull => rfl
  | vObj o => rfl

theorem getField_anonymize (r : RecordT) (k : String) :
    getField (anonymize_record r) k = (getField r k).map anonymizeValue := by
  induction r with
  | nil => rfl
  | cons kv rest ih =>
    cases kv with
    | mk k' v' =>
      rw [anonymize_record_eq_map, List.map_cons]
      rw [anonymize_record_eq_map] at ih
      by_cases hk : k' = k
      · rw [getField, if_pos hk, getField, if_pos hk]
        rfl
      · rw [getField, if_neg hk, getField, if_neg hk, ih]

theorem C5_frame_amended :
    (∀ (r : RecordT) (k : String) (v : JValue), v.isStr = false →
        getField r k = some v → getField (anonymize_record r) k = some v)
      ∧ (∀ s : List Char, hasMatch EMAIL_PATTERNS s = false →
          hasMatch PHONE_PATTERNS s = false → anonymizeStr s = s) := by
  constructor
  · intro r k v hv hget
    rw [getField_anonymize, hget]
    show some (anonymizeValue v) = some v
    rw [anonymizeValue_eq_of_not_str hv]
  · intro s hEmail hPhone
    have h1 : reSub EMAIL_PATTERNS EMAIL_REPL s = s := by
      rw [reSub]
      exact subScanF_eq_of_no_match _ _ _ _ _ hEmail
    rw [anonymizeStr, h1, reSub]
    exact subScanF_eq_of_no_match _ _ _ _ _ hPhone

/-- Witness for C5 (amended): a nested metadata value (even one holding an
address) and a match-free source string are unchanged. -/
theorem C5_frame_amended_witness :
    getField (anonymize_record [("text", JValue.vStr (chars "x")),
        ("metadata", JValue.vObj [("author", Scalar.sStr (chars "a@b.cd"))])]) "metadata"
      = some (JValue.vObj [("author", Scalar.sStr (chars "a@b.cd"))])
      ∧ anonymizeStr (chars "doc/x.txt") = chars "doc/x.txt" := by
  constructor
  · exact C5_frame_amended.1 _ "metadata" _ (by decide) (by decide)
  · exact C5_frame_amended.2 (chars "doc/x.txt") (by decide) (by decide)

theorem keepFirstAux_sublist (seen : List JValue) (l : List RecordT) :
    (keepFirstAux seen l).Sublist l := by
  induction l generalizing seen with
  | nil => exact List.Sublist.refl []
  | cons x xs ih =>
    rw [keepFirstAux]
    by_cases hx : textKey x ∈ seen
    · rw [if_pos hx]
      exact (ih seen).cons x
    · rw [if_neg hx]
      exact (ih _).cons₂ x

theorem keepFirstAux_pairwise (seen : List JValue) (l : List RecordT) :
    ((keepFirstAux seen l).Pairwise (fun a b => textKey a ≠ textKey b))
      ∧ ∀ r ∈ keepFirstAux seen l, textKey r ∉ seen := by
  induction l generalizing seen with
  | nil => exact ⟨List.Pairwise.nil, fun r h => absurd h (List.not_mem_nil r)⟩
  | cons x xs ih =>
    rw [keepFirstAux]
    by_cases hx : textKey x ∈ seen
    · rw [if_pos hx]
      exact ih seen
    · rw [if_neg hx]
      obtain ⟨hp, hs⟩ := ih (textKey x :: seen)
      refine ⟨List.Pairwise.cons ?_ hp, ?_⟩
      · intro b hb heq
        exact hs b hb (by rw [← heq]; exact List.mem_cons_self _ _)
      · intro r hr
        rcases List.mem_cons.mp hr with h1 | h1
        · subst h1; exact hx
        · intro hmem
          exact hs r h1 (List.mem_cons_of_mem _ hmem)

theorem keepFirstAux_covers (l : List RecordT) :
    ∀ (seen : List JValue) (r : RecordT), r ∈ l → textKey r ∉ seen →
      ∃ r' ∈ keepFirstAux seen l, textKey r' = textKey r := by
  induction l with
  | nil => intro seen r h _; cases h
  | cons x xs ih =>
    intro seen r hmem hseen
    by_cases hx : textKey x ∈ seen
    · rw [keepFirstAux, if_pos hx]
      rcases List.mem_cons.mp hmem with h1 | h1
      · exact absurd (by rw [h1]; exact hx) hseen
      · exact ih seen r h1 hseen
    · rw [keepFirstAux, if_neg hx]
      rcases List.mem_cons.mp hmem with h1 | h1
      · exact ⟨x, List.mem_cons_self _ _, by rw [h1]⟩
      · by_cases hrx : textKey r = textKey x
        · exact ⟨x, List.mem_cons_self _ _, hrx.symm⟩
        · have hnotin : textKey r ∉ textKey x :: seen := by
            intro hm
            rcases List.mem_cons.mp hm with h2 | h2
            · exact hrx h2
            · exact hseen h2
          obtain ⟨r', hr', ht⟩ := ih (textKey x :: seen) r h1 hnotin
          exact ⟨r', List.mem_cons_of_mem _ hr', ht⟩

theorem dedup_records_sublist (rs : List RecordT) :
    (dedup_records rs).Sublist (rs.filter stripFilter) := by
  simp only [dedup_records]
  split
  · exact keepFirstAux_sublist [] _
  · exact List.Sublist.refl _

theorem dedup_records_pairwise (rs : List RecordT) :
    (dedup_records rs).Pairwise (fun a b => textKey a ≠ textKey b) := by
  simp only [dedup_records]
  split
  · exact (keepFirstAux_pairwise [] _).1
  · next h =>
    have hlen : (rs.filter stripFilter).length ≤ 1 :=
      le_trans (List.length_filter_le _ _) (by omega)
    cases hfl : rs.filter stripFilter with
    | nil => exact List.Pairwise.nil
    | cons x t =>
      cases t with
      | nil => simp
      | cons y zs =>
        rw [hfl] at hlen
        simp only [List.length_cons] at hlen
        omega

theorem dedup_records_covers (rs : List RecordT) (r : RecordT)
    (hmem : r ∈ rs) (hsf : stripFilter r = true) :
    ∃ r' ∈ dedup_records rs, textKey r' = textKey r := by
  have hf : r ∈ rs.filter stripFilter := List.mem_filter.mpr ⟨hmem, hsf⟩
  simp only [dedup_records]
  split
  · exact keepFirstAux_covers _ [] r hf (List.not_mem_nil _)
  · exact ⟨r, hf, rfl⟩

theorem ingestRecord_anonymized {x r' : RecordT} (h : ingestRecord x = some r') :
    ∃ r₀, r' = anonymize_record r₀ := by
  unfold ingestRecord at h
  revert h
  cases process_text_field
      (match getField x "text" with | some v => v | none => JValue.vNull) 10 with
  | vNull => intro h; exact Option.noConfusion h
  | vStr s => intro h; exact ⟨_, (Option.some.inj h).symm⟩
  | vNum n => intro h; exact ⟨_, (Option.some.inj h).symm⟩
  | vBool b => intro h; exact ⟨_, (Option.some.inj h).symm⟩
  | vObj o => intro h; exact ⟨_, (Option.some.inj h).symm⟩

theorem collect_records_anonymized (rs : List RecordT) :
    ∀ r ∈ (collect_records rs).1, ∃ r₀, r = anonymize_record r₀ := by
  induction rs with
  | nil => intro r h; cases h
  | cons x xs ih =>
    intro r h
    rw [collect_records] at h
    cases hing : ingestRecord x with
    | none => rw [hing] at h; exact ih r h
    | some r' =>
      rw [hing] at h
      rcases List.mem_cons.mp h with h1 | h1
      · obtain ⟨r₀, hr₀⟩ := ingestRecord_anonymized hing
        exact ⟨r₀, by rw [h1, hr₀]⟩
      · exact ih r h1

/-- C4 counterexample: the pipeline never strips the text — a record with
text `" a "` survives every stage unchanged, so an emitted record's text
need not equal its stripped form. -/
theorem C4_counterexample :
    (convert_records [[("text", JValue.vStr (chars " a "))]]).1
        = [[("text", JValue.vStr (chars " a "))]]
      ∧ pyStrip (chars " a ") ≠ chars " a " := by
  constructor <;> decide

/-- C4 (amended): every record emitted by the pipeline passes the strip
filter (a string text strips to nonempty), no two emitted records share the
same text cell, and every emitted record is the image of `anonymize_record`
(top-level string fields have had email-then-phone substitution applied).
The text itself need not be stripped, and strings nested inside `metadata`
are not redacted. -/
theorem C4_output_invariant_amended (rs : List RecordT) :
    ((convert_records rs).1.Pairwise (fun a b => textKey a ≠ textKey b))
      ∧ (∀ r ∈ (convert_records rs).1, stripFilter r = true)
      ∧ (∀ r ∈ (convert_records rs).1, ∃ r₀, r = anonymize_record r₀) := by
  refine ⟨dedup_records_pairwise _, ?_, ?_⟩
  · intro r h
    have hf := (dedup_records_sublist _).subset h
    exact (List.mem_filter.mp hf).2
  · intro r h
    have hf := (dedup_records_sublist _).subset h
    exact collect_records_anonymized _ r (List.mem_filter.mp hf).1

/-- Witness for C4 (amended) on a one-record batch. -/
theorem C4_output_invariant_amended_witness :
    stripFilter [("text", JValue.vStr (chars "b"))] = true
      ∧ ∃ r₀, [("text", JValue.vStr (chars "b"))] = anonymize_record r₀ := by
  constructor
  · exact (C4_output_invariant_amended [[("text", JValue.vStr (chars "b"))]]).2.1
      [("text", JValue.vStr (chars "b"))] (by decide)
  · exact (C4_output_invariant_amended [[("text", JValue.vStr (chars "b"))]]).2.2
      [("text", JValue.vStr (chars "b"))] (by decide)

/-- C6: deduplication drops empty-after-strip texts first, then keeps
exactly the first-encountered record for each distinct text value in input
order (the result is an order-preserving sublist of the filtered batch,
its text cells are pairwise distinct, and every surviving text value is
represented); texts `["a","b","a"]` leave exactly the first two records. -/
theorem C6_dedup_first_kept :
    (∀ rs : List RecordT,
        (dedup_records rs).Sublist (rs.filter stripFilter)
          ∧ (dedup_records rs).Pairwise (fun a b => textKey a ≠ textKey b)
          ∧ ∀ r ∈ rs, stripFilter r = true →
              ∃ r' ∈ dedup_records rs, textKey r' = textKey r)
      ∧ dedup_records
          [[("text", JValue.vStr (chars "a")), ("source", JValue.vStr (chars "s1"))],
           [("text", JValue.vStr (chars "b")), ("source", JValue.vStr (chars "s2"))],
           [("text", JValue.vStr (chars "a")), ("source", JValue.vStr (chars "s3"))]]
        = [[("text", JValue.vStr (chars "a")), ("source", JValue.vStr (chars "s1"))],
           [("text", JValue.vStr (chars "b")), ("source", JValue.vStr (chars "s2"))]] := by
  constructor
  · intro rs
    exact ⟨dedup_records_sublist rs, dedup_records_pairwise rs,
      fun r hmem hsf => dedup_records_covers rs r hmem hsf⟩
  · decide

/-- Witness for C6: the duplicate third record's text value survives via the
first record. -/
theorem C6_dedup_first_kept_witness :
    ∃ r' ∈ dedup_records
        [[("text", JValue.vStr (chars "a")), ("source", JValue.vStr (chars "s1"))],
         [("text", JValue.vStr (chars "b")), ("source", JValue.vStr (chars "s2"))],
         [("text", JValue.vStr (chars "a")), ("source", JValue.vStr (chars "s3"))]],
      textKey r'
        = textKey [("text", JValue.vStr (chars "a")), ("source", JValue.vStr (chars "s3"))] :=
  (C6_dedup_first_kept.1 _).2.2
    [("text", JValue.vStr (chars "a")), ("source", JValue.vStr (chars "s3"))]
    (by decide) (by decide)
